import Mathlib

/-!
Shallow embedding of the `bloomfilter` C++ library (bloom-filter-cpp):
the parameter calculator and constants from `include/bloomfilter/types.hpp`,
the hash engine (`MurmurHash3`, `DoubleHasher`) from
`include/bloomfilter/hash_functions.hpp`, and the `BloomFilter<uint64_t>`
coordinator from `include/bloomfilter/bloom_filter.hpp`.

Machine 64-bit unsigned arithmetic is modelled over `Nat` with explicit
`% 2 ^ 64` reductions at every operation that can overflow; `uint8_t`
bytes are `Nat` values `< 256`; `std::vector<uint8_t>` is `List Nat`;
byte sequences passed through `const void* / size_t` are `List Nat`
(a null pointer is the `none` case of the `Option` wrappers);
`double` inputs are exact rationals `ℚ` and computed floating-point
statistics are idealised as real numbers `ℝ`; `throw std::invalid_argument`
is `Except.error` with the source's message string.
-/

namespace Bloomfilter

/-- 2^64, the modulus of `uint64_t` arithmetic. -/
def UINT64_MOD : Nat := 18446744073709551616

/-- Constant `MIN_BIT_ARRAY_SIZE` from types.hpp. -/
def MIN_BIT_ARRAY_SIZE : Nat := 64

/-- Constant `MIN_HASH_FUNCTIONS` from types.hpp. -/
def MIN_HASH_FUNCTIONS : Nat := 1

/-- Constant `MAX_HASH_FUNCTIONS` from types.hpp. -/
def MAX_HASH_FUNCTIONS : Nat := 32

/-- Constant `DEFAULT_FALSE_POSITIVE_RATE` from types.hpp (the double 0.01). -/
def DEFAULT_FALSE_POSITIVE_RATE : ℚ := 0.01

/-- Constant `LN_2` from types.hpp (the double literal stored there). -/
def LN_2 : ℚ := 0.6931471805599453

/-- Constant `LN_2_SQUARED` from types.hpp (the double literal stored there). -/
def LN_2_SQUARED : ℚ := 0.4804530139182014

/-- `calculate_optimal_bit_array_size` from types.hpp:
`m = ceil(-n * log(p) / LN_2_SQUARED)`, then `max` with `MIN_BIT_ARRAY_SIZE`;
`n = 0` returns the minimum, a `p` outside `(0,1)` is replaced by the default
rate.  The floating-point computation is idealised over `ℝ`. -/
noncomputable def calculate_optimal_bit_array_size
    (expected_elements : Nat) (false_positive_rate : ℚ) : Nat :=
  if expected_elements = 0 then MIN_BIT_ARRAY_SIZE
  else
    let p : ℚ :=
      if false_positive_rate ≤ 0 ∨ 1 ≤ false_positive_rate then DEFAULT_FALSE_POSITIVE_RATE
      else false_positive_rate
    let m : ℝ := -(expected_elements : ℝ) * Real.log (p : ℝ) / (LN_2_SQUARED : ℝ)
    max (Int.toNat ⌈m⌉) MIN_BIT_ARRAY_SIZE

/-- `calculate_optimal_hash_count` from types.hpp:
`k = round((m/n) * LN_2)` clamped into `[MIN_HASH_FUNCTIONS, MAX_HASH_FUNCTIONS]`;
`n = 0` returns 1.  `std::round` on a nonnegative argument is `⌊x + 1/2⌋`. -/
noncomputable def calculate_optimal_hash_count
    (bit_array_size : Nat) (expected_elements : Nat) : Nat :=
  if expected_elements = 0 then 1
  else
    let k : ℝ := ((bit_array_size : ℝ) / (expected_elements : ℝ)) * (LN_2 : ℚ)
    max MIN_HASH_FUNCTIONS (min (Int.toNat ⌊k + 1/2⌋) MAX_HASH_FUNCTIONS)

/-- `estimate_false_positive_rate` from types.hpp:
`(1 - e^(-k*n/m))^k`, with the degenerate cases `m = 0 ∨ k = 0 → 1.0`
and `n = 0 → 0.0`. -/
noncomputable def estimate_false_positive_rate
    (bit_array_size hash_count inserted_elements : Nat) : ℝ :=
  if bit_array_size = 0 ∨ hash_count = 0 then 1
  else if inserted_elements = 0 then 0
  else
    let exponent : ℝ :=
      -((hash_count : ℝ) * (inserted_elements : ℝ)) / (bit_array_size : ℝ)
    (1 - Real.exp exponent) ^ hash_count

/-- MurmurHash3 body constant `c1`. -/
def MURMUR_C1 : Nat := 0x87c37b91114253d5

/-- MurmurHash3 body constant `c2`. -/
def MURMUR_C2 : Nat := 0x4cf5ad432745937f

/-- `MurmurHash3::rotl64`: 64-bit rotate left. -/
def rotl64 (x : Nat) (r : Nat) : Nat :=
  ((x <<< r) % UINT64_MOD) ||| (x >>> (64 - r))

/-- `MurmurHash3::fmix64`: the 64-bit finalisation mixer. -/
def fmix64 (k : Nat) : Nat :=
  let k1 := k ^^^ (k >>> 33)
  let k2 := (k1 * 0xff51afd7ed558ccd) % UINT64_MOD
  let k3 := k2 ^^^ (k2 >>> 33)
  let k4 := (k3 * 0xc4ceb9fe1a85ec53) % UINT64_MOD
  k4 ^^^ (k4 >>> 33)

/-- Value of a little-endian block of at most 8 bytes, as read through the
`uint64_t` block pointer (and, for the tail, built by the fall-through
`switch` accumulation).  Each entry is masked to its `uint8_t` value. -/
def leBytes (bs : List Nat) : Nat :=
  bs.foldr (fun b acc => acc * 256 + b % 256) 0

/-- The `k1` mixing steps shared by the MurmurHash3 body and tail:
`k1 *= c1; k1 = rotl64(k1,31); k1 *= c2`. -/
def mixK1 (k1 : Nat) : Nat :=
  (rotl64 ((k1 * MURMUR_C1) % UINT64_MOD) 31 * MURMUR_C2) % UINT64_MOD

/-- One iteration of the MurmurHash3 body loop on an 8-byte block value:
`h1 ^= mix(k1); h1 = rotl64(h1,27); h1 = h1*5 + 0x52dce729`. -/
def bodyStep (h1 : Nat) (k1 : Nat) : Nat :=
  (rotl64 (h1 ^^^ mixK1 k1) 27 * 5 + 0x52dce729) % UINT64_MOD

/-- The MurmurHash3 body loop: consume full 8-byte blocks, returning the
accumulated hash state and the remaining tail bytes. -/
def murmurBlocks : Nat → List Nat → Nat × List Nat
  | h1, b0 :: b1 :: b2 :: b3 :: b4 :: b5 :: b6 :: b7 :: rest =>
      murmurBlocks (bodyStep h1 (leBytes [b0, b1, b2, b3, b4, b5, b6, b7])) rest
  | h1, rest => (h1, rest)

/-- `MurmurHash3::hash(data, size, seed)`: body over full blocks, tail
accumulation of the remaining `size % 8` bytes, then `h1 ^= size` and
`fmix64` finalisation. -/
def murmur3 (seed : Nat) (bytes : List Nat) : Nat :=
  let p := murmurBlocks seed bytes
  let h := if p.2.isEmpty then p.1 else p.1 ^^^ mixK1 (leBytes p.2)
  fmix64 (h ^^^ (bytes.length % UINT64_MOD))

/-- Default `seed1` of `DoubleHasher` (first `MurmurHash3` base hash). -/
def DOUBLE_HASHER_SEED1 : Nat := 0

/-- Default `seed2` of `DoubleHasher` (second `MurmurHash3` base hash). -/
def DOUBLE_HASHER_SEED2 : Nat := 0x1234567890abcdef

/-- `DoubleHasher::get_all_hashes`: compute the two base hashes, force the
second one odd (`if (h2 % 2 == 0) h2 += 1`), and produce the `k` probe
indices `(h1 + i * h2) % bit_array_size` in 64-bit arithmetic. -/
def get_all_hashes (bit_array_size : Nat) (k : Nat) (x : List Nat) : List Nat :=
  let h1 := murmur3 DOUBLE_HASHER_SEED1 x
  let h2 := murmur3 DOUBLE_HASHER_SEED2 x
  let h2 := if h2 % 2 = 0 then h2 + 1 else h2
  (List.range k).map (fun i => ((h1 + i * h2) % UINT64_MOD) % bit_array_size)

/-- The state of a `BloomFilter<uint64_t>` object, fields in declaration
order.  The `DoubleHasher` member is not stored: both constructors set its
size to `bit_array_size_` and its seeds to the defaults, so hashing is the
pure function `get_all_hashes bit_array_size_`. -/
structure BloomFilter where
  bit_array_size_ : Nat
  bit_array_bytes_ : Nat
  hash_count_ : Nat
  expected_elements_ : Nat
  false_positive_rate_ : ℝ
  inserted_count_ : Nat
  bit_array_ : List Nat

/-- `BloomFilter::set_bit`: out-of-range positions are skipped, otherwise
OR the single bit into its byte. -/
def set_bit (f : BloomFilter) (position : Nat) : BloomFilter :=
  if f.bit_array_size_ ≤ position then f
  else
    let byte_index := position / 8
    let bit_index := position % 8
    let bytes := f.bit_array_.set byte_index
      ((f.bit_array_.getD byte_index 0) ||| (1 <<< bit_index))
    { f with bit_array_ := bytes }

/-- `BloomFilter::get_bit`: out-of-range positions read as false, otherwise
test the single bit of its byte. -/
def get_bit (f : BloomFilter) (position : Nat) : Bool :=
  if f.bit_array_size_ ≤ position then false
  else decide ((f.bit_array_.getD (position / 8) 0) &&& (1 <<< (position % 8)) ≠ 0)

/-- `BloomFilter::insert(data, size)` on a non-null pointer: an empty input
returns immediately; otherwise set the bit at each probe index and
unconditionally increment `inserted_count_`, a `size_t` whose increment
wraps modulo `2^64`. -/
def insert (f : BloomFilter) (x : List Nat) : BloomFilter :=
  if x.length = 0 then f
  else
    let hashes := get_all_hashes f.bit_array_size_ f.hash_count_ x
    let g := hashes.foldl set_bit f
    { g with inserted_count_ := (g.inserted_count_ + 1) % UINT64_MOD }

/-- `BloomFilter::insert` including the `data == nullptr` early return
(`none` models a null pointer). -/
def insert_ptr (f : BloomFilter) (data : Option (List Nat)) : BloomFilter :=
  match data with
  | none => f
  | some x => insert f x

/-- `BloomFilter::contains(data, size)` on a non-null pointer: an empty
input returns false; otherwise every probe bit must be set. -/
def contains (f : BloomFilter) (x : List Nat) : Bool :=
  if x.length = 0 then false
  else (get_all_hashes f.bit_array_size_ f.hash_count_ x).all (fun h => get_bit f h)

/-- `BloomFilter::contains` including the `data == nullptr` early return. -/
def contains_ptr (f : BloomFilter) (data : Option (List Nat)) : Bool :=
  match data with
  | none => false
  | some x => contains f x

/-- `BloomFilter::size`. -/
def size (f : BloomFilter) : Nat := f.inserted_count_

/-- `BloomFilter::capacity`. -/
def capacity (f : BloomFilter) : Nat := f.expected_elements_

/-- `BloomFilter::false_positive_rate`. -/
def false_positive_rate (f : BloomFilter) : ℝ := f.false_positive_rate_

/-- `BloomFilter::estimated_false_positive_rate`. -/
noncomputable def estimated_false_positive_rate (f : BloomFilter) : ℝ :=
  estimate_false_positive_rate f.bit_array_size_ f.hash_count_ f.inserted_count_

/-- `BloomFilter::bit_array_size`. -/
def bit_array_size (f : BloomFilter) : Nat := f.bit_array_size_

/-- `BloomFilter::hash_count`. -/
def hash_count (f : BloomFilter) : Nat := f.hash_count_

/-- `BloomFilter::memory_usage`: `bit_array_bytes_ + sizeof(*this)`.  The
`sizeof(*this)` summand is a layout constant independent of the filter
state and is dropped here; every claim about `memory_usage` concerns only
its (in)variance, which an additive constant does not affect. -/
def memory_usage (f : BloomFilter) : Nat := f.bit_array_bytes_

/-- `BloomFilter::clear`: `std::fill` the byte vector with zeros and reset
`inserted_count_`. -/
def clear (f : BloomFilter) : BloomFilter :=
  { f with bit_array_ := f.bit_array_.map (fun _ => 0), inserted_count_ := 0 }

/-- The Brian Kernighan popcount loop of `BloomFilter::count_set_bits`:
`while (byte) { byte &= byte - 1; count++ }`. -/
def count_bits_in_byte (b : Nat) : Nat :=
  if h : b = 0 then 0 else count_bits_in_byte (b &&& (b - 1)) + 1
termination_by b
decreasing_by
  exact Nat.lt_of_le_of_lt Nat.and_le_right (Nat.pred_lt h)

/-- `BloomFilter::count_set_bits`: popcount of the full bytes below
`bit_array_size_ / 8`, plus the popcount of the final partial byte masked
to its valid low `bit_array_size_ % 8` bits. -/
def count_set_bits (f : BloomFilter) : Nat :=
  let full_bytes := f.bit_array_size_ / 8
  let base := ((f.bit_array_.take full_bytes).map count_bits_in_byte).sum
  let extra_bits := f.bit_array_size_ % 8
  if 0 < extra_bits ∧ full_bytes < f.bit_array_.length then
    base + count_bits_in_byte
      ((f.bit_array_.getD full_bytes 0) &&& ((1 <<< extra_bits) - 1))
  else base

/-- The derived-mode constructor
`BloomFilter(size_t expected_elements, double false_positive_rate)`:
validate, derive `m` and `k` by the parameter calculator, store the input
rate, and allocate `ceil(m/8)` zero bytes. -/
noncomputable def mkBloomFilterDerived
    (expected_elements : Nat) (false_positive_rate : ℚ) :
    Except String BloomFilter :=
  if expected_elements = 0 then
    Except.error "Expected elements must be greater than 0"
  else if false_positive_rate ≤ 0 ∨ 1 ≤ false_positive_rate then
    Except.error "False positive rate must be between 0 and 1"
  else
    let m := calculate_optimal_bit_array_size expected_elements false_positive_rate
    let k := calculate_optimal_hash_count m expected_elements
    Except.ok
      { bit_array_size_ := m
        bit_array_bytes_ := (m + 7) / 8
        hash_count_ := k
        expected_elements_ := expected_elements
        false_positive_rate_ := (false_positive_rate : ℝ)
        inserted_count_ := 0
        bit_array_ := List.replicate ((m + 7) / 8) 0 }

/-- The explicit-mode constructor
`BloomFilter(size_t bit_array_size, size_t hash_count, size_t expected_elements)`:
validate `m` and `k`, compute the stored rate by the estimator at
`inserted = expected_elements`, and allocate `ceil(m/8)` zero bytes. -/
noncomputable def mkBloomFilterExplicit
    (bit_array_size hash_count expected_elements : Nat) :
    Except String BloomFilter :=
  if bit_array_size = 0 then
    Except.error "Bit array size must be greater than 0"
  else if hash_count = 0 ∨ MAX_HASH_FUNCTIONS < hash_count then
    Except.error "Hash count must be between 1 and MAX_HASH_FUNCTIONS"
  else
    Except.ok
      { bit_array_size_ := bit_array_size
        bit_array_bytes_ := (bit_array_size + 7) / 8
        hash_count_ := hash_count
        expected_elements_ := expected_elements
        false_positive_rate_ :=
          estimate_false_positive_rate bit_array_size hash_count expected_elements
        inserted_count_ := 0
        bit_array_ := List.replicate ((bit_array_size + 7) / 8) 0 }

/-- Well-formedness of a filter state, true of every state reachable from a
constructor: the byte vector has exactly `ceil(m/8)` entries and each entry
is a `uint8_t` value. -/
def WF (f : BloomFilter) : Prop :=
  f.bit_array_.length = (f.bit_array_size_ + 7) / 8 ∧ ∀ b ∈ f.bit_array_, b < 256

instance (f : BloomFilter) : Decidable (WF f) := by
  unfold WF; infer_instance

/-- States reachable from `f` by any sequence of the mutating operations
(`insert` and `clear`; `contains` and the accessors are `const`). -/
inductive Reachable : BloomFilter → BloomFilter → Prop
  | refl (f : BloomFilter) : Reachable f f
  | step_insert {f g : BloomFilter} (x : List Nat) :
      Reachable f g → Reachable f (insert g x)
  | step_clear {f g : BloomFilter} :
      Reachable f g → Reachable f (clear g)

/-- Folding `insert` over a list of inputs: a sequence of insert calls. -/
def insertAll (f : BloomFilter) (xs : List (List Nat)) : BloomFilter :=
  xs.foldl insert f

/-! ### Frame lemmas: which fields each mutating operation leaves alone -/

@[simp] lemma set_bit_size (f : BloomFilter) (p : Nat) :
    (set_bit f p).bit_array_size_ = f.bit_array_size_ := by
  unfold set_bit; split <;> rfl

@[simp] lemma set_bit_bytes (f : BloomFilter) (p : Nat) :
    (set_bit f p).bit_array_bytes_ = f.bit_array_bytes_ := by
  unfold set_bit; split <;> rfl

@[simp] lemma set_bit_hashes (f : BloomFilter) (p : Nat) :
    (set_bit f p).hash_count_ = f.hash_count_ := by
  unfold set_bit; split <;> rfl

@[simp] lemma set_bit_expected (f : BloomFilter) (p : Nat) :
    (set_bit f p).expected_elements_ = f.expected_elements_ := by
  unfold set_bit; split <;> rfl

@[simp] lemma set_bit_rate (f : BloomFilter) (p : Nat) :
    (set_bit f p).false_positive_rate_ = f.false_positive_rate_ := by
  unfold set_bit; split <;> rfl

@[simp] lemma set_bit_inserted (f : BloomFilter) (p : Nat) :
    (set_bit f p).inserted_count_ = f.inserted_count_ := by
  unfold set_bit; split <;> rfl

@[simp] lemma set_bit_length (f : BloomFilter) (p : Nat) :
    (set_bit f p).bit_array_.length = f.bit_array_.length := by
  unfold set_bit; split <;> simp

@[simp] lemma foldl_set_bit_size (L : List Nat) (f : BloomFilter) :
    (L.foldl set_bit f).bit_array_size_ = f.bit_array_size_ := by
  induction L generalizing f with
  | nil => rfl
  | cons a L ih => simp [List.foldl, ih]

@[simp] lemma foldl_set_bit_bytes (L : List Nat) (f : BloomFilter) :
    (L.foldl set_bit f).bit_array_bytes_ = f.bit_array_bytes_ := by
  induction L generalizing f with
  | nil => rfl
  | cons a L ih => simp [List.foldl, ih]

@[simp] lemma foldl_set_bit_hashes (L : List Nat) (f : BloomFilter) :
    (L.foldl set_bit f).hash_count_ = f.hash_count_ := by
  induction L generalizing f with
  | nil => rfl
  | cons a L ih => simp [List.foldl, ih]

@[simp] lemma foldl_set_bit_expected (L : List Nat) (f : BloomFilter) :
    (L.foldl set_bit f).expected_elements_ = f.expected_elements_ := by
  induction L generalizing f with
  | nil => rfl
  | cons a L ih => simp [List.foldl, ih]

@[simp] lemma foldl_set_bit_rate (L : List Nat) (f : BloomFilter) :
    (L.foldl set_bit f).false_positive_rate_ = f.false_positive_rate_ := by
  induction L generalizing f with
  | nil => rfl
  | cons a L ih => simp [List.foldl, ih]

@[simp] lemma foldl_set_bit_inserted (L : List Nat) (f : BloomFilter) :
    (L.foldl set_bit f).inserted_count_ = f.inserted_count_ := by
  induction L generalizing f with
  | nil => rfl
  | cons a L ih => simp [List.foldl, ih]

@[simp] lemma foldl_set_bit_length (L : List Nat) (f : BloomFilter) :
    (L.foldl set_bit f).bit_array_.length = f.bit_array_.length := by
  induction L generalizing f with
  | nil => rfl
  | cons a L ih => simp [List.foldl, ih]

@[simp] lemma insert_size (f : BloomFilter) (x : List Nat) :
    (insert f x).bit_array_size_ = f.bit_array_size_ := by
  unfold insert; split <;> simp

@[simp] lemma insert_bytes (f : BloomFilter) (x : List Nat) :
    (insert f x).bit_array_bytes_ = f.bit_array_bytes_ := by
  unfold insert; split <;> simp

@[simp] lemma insert_hashes (f : BloomFilter) (x : List Nat) :
    (insert f x).hash_count_ = f.hash_count_ := by
  unfold insert; split <;> simp

@[simp] lemma insert_expected (f : BloomFilter) (x : List Nat) :
    (insert f x).expected_elements_ = f.expected_elements_ := by
  unfold insert; split <;> simp

@[simp] lemma insert_rate (f : BloomFilter) (x : List Nat) :
    (insert f x).false_positive_rate_ = f.false_positive_rate_ := by
  unfold insert; split <;> simp

@[simp] lemma insert_length (f : BloomFilter) (x : List Nat) :
    (insert f x).bit_array_.length = f.bit_array_.length := by
  unfold insert; split <;> simp

@[simp] lemma clear_size (f : BloomFilter) :
    (clear f).bit_array_size_ = f.bit_array_size_ := rfl

@[simp] lemma clear_bytes (f : BloomFilter) :
    (clear f).bit_array_bytes_ = f.bit_array_bytes_ := rfl

@[simp] lemma clear_hashes (f : BloomFilter) :
    (clear f).hash_count_ = f.hash_count_ := rfl

@[simp] lemma clear_expected (f : BloomFilter) :
    (clear f).expected_elements_ = f.expected_elements_ := rfl

@[simp] lemma clear_rate (f : BloomFilter) :
    (clear f).false_positive_rate_ = f.false_positive_rate_ := rfl

@[simp] lemma clear_length (f : BloomFilter) :
    (clear f).bit_array_.length = f.bit_array_.length := by
  unfold clear; simp

@[simp] lemma insertAll_size (xs : List (List Nat)) (f : BloomFilter) :
    (insertAll f xs).bit_array_size_ = f.bit_array_size_ := by
  induction xs generalizing f with
  | nil => rfl
  | cons a xs ih => simp [insertAll, List.foldl] at ih ⊢; simp [ih]

@[simp] lemma insertAll_hashes (xs : List (List Nat)) (f : BloomFilter) :
    (insertAll f xs).hash_count_ = f.hash_count_ := by
  induction xs generalizing f with
  | nil => rfl
  | cons a xs ih => simp [insertAll, List.foldl] at ih ⊢; simp [ih]

/-! ### Reading and writing single bits -/

lemma and_shiftLeft_ne_zero (x r : Nat) :
    (x &&& (1 <<< r) ≠ 0) ↔ x.testBit r = true := by
  rw [Nat.shiftLeft_eq, one_mul, Nat.and_two_pow]
  cases h : x.testBit r
  · simp
  · simp [(Nat.two_pow_pos r).ne']

lemma get_bit_eq_true_iff (f : BloomFilter) (i : Nat) :
    get_bit f i = true ↔
      i < f.bit_array_size_ ∧ (f.bit_array_.getD (i / 8) 0).testBit (i % 8) = true := by
  unfold get_bit
  by_cases h : f.bit_array_size_ ≤ i
  · rw [if_pos h]
    exact ⟨fun hf => Bool.noConfusion hf, fun hb => absurd hb.1 (by omega)⟩
  · rw [if_neg h]
    simp only [decide_eq_true_eq, and_shiftLeft_ne_zero]
    exact ⟨fun hb => ⟨by omega, hb⟩, fun hb => hb.2⟩

lemma getD_set_self (l : List Nat) (i a : Nat) (h : i < l.length) :
    (l.set i a).getD i 0 = a := by
  rw [List.getD_eq_getElem?_getD, List.getElem?_set_self h]; rfl

lemma getD_set_ne (l : List Nat) {i j : Nat} (a : Nat) (h : i ≠ j) :
    (l.set i a).getD j 0 = l.getD j 0 := by
  rw [List.getD_eq_getElem?_getD, List.getElem?_set_ne h, ← List.getD_eq_getElem?_getD]

lemma get_bit_set_bit_self (f : BloomFilter) (p : Nat)
    (hp : p < f.bit_array_size_) (hlen : p / 8 < f.bit_array_.length) :
    get_bit (set_bit f p) p = true := by
  rw [get_bit_eq_true_iff]
  refine ⟨by simpa using hp, ?_⟩
  unfold set_bit
  rw [if_neg (by omega)]
  simp only
  rw [getD_set_self _ _ _ hlen, Nat.shiftLeft_eq, one_mul, Nat.testBit_lor,
    Nat.testBit_two_pow_self, Bool.or_true]

lemma get_bit_set_bit_mono (f : BloomFilter) (q i : Nat)
    (h : get_bit f i = true) : get_bit (set_bit f q) i = true := by
  unfold set_bit
  by_cases hg : f.bit_array_size_ ≤ q
  · rw [if_pos hg]; exact h
  · rw [if_neg hg]
    rw [get_bit_eq_true_iff] at h ⊢
    refine ⟨h.1, ?_⟩
    simp only
    by_cases hb : q / 8 = i / 8
    · rw [hb]
      by_cases hl : i / 8 < f.bit_array_.length
      · rw [getD_set_self _ _ _ hl, Nat.testBit_lor, h.2, Bool.true_or]
      · rw [List.set_eq_of_length_le (by omega)]; exact h.2
    · rw [getD_set_ne _ _ hb]; exact h.2

lemma get_bit_foldl_mono (L : List Nat) (f : BloomFilter) (i : Nat)
    (h : get_bit f i = true) : get_bit (L.foldl set_bit f) i = true := by
  induction L generalizing f with
  | nil => exact h
  | cons a L ih => exact ih _ (get_bit_set_bit_mono f a i h)

lemma get_bit_foldl_mem (L : List Nat) (f : BloomFilter)
    (hlen : f.bit_array_.length = (f.bit_array_size_ + 7) / 8)
    (p : Nat) (hp : p ∈ L) (hpm : p < f.bit_array_size_) :
    get_bit (L.foldl set_bit f) p = true := by
  induction L generalizing f with
  | nil => cases hp
  | cons a L ih =>
    rcases List.mem_cons.1 hp with rfl | hmem
    · exact get_bit_foldl_mono L _ p
        (get_bit_set_bit_self f p hpm (by omega))
    · exact ih (set_bit f a) (by simpa using hlen) hmem (by simpa using hpm)

lemma get_bit_count_update (g : BloomFilter) (c i : Nat) :
    get_bit { g with inserted_count_ := c } i = get_bit g i := rfl

lemma get_bit_insert_mono (f : BloomFilter) (x : List Nat) (i : Nat)
    (h : get_bit f i = true) : get_bit (insert f x) i = true := by
  unfold insert
  by_cases hx : x.length = 0
  · rw [if_pos hx]; exact h
  · rw [if_neg hx]
    exact get_bit_foldl_mono _ f i h

lemma get_bit_insertAll_mono (xs : List (List Nat)) (f : BloomFilter) (i : Nat)
    (h : get_bit f i = true) : get_bit (insertAll f xs) i = true := by
  induction xs generalizing f with
  | nil => exact h
  | cons a xs ih => exact ih _ (get_bit_insert_mono f a i h)

lemma mem_get_all_hashes_lt {m : Nat} (hm : 0 < m) (k : Nat) (x : List Nat)
    {p : Nat} (hp : p ∈ get_all_hashes m k x) : p < m := by
  unfold get_all_hashes at hp
  simp only [List.mem_map, List.mem_range] at hp
  obtain ⟨i, -, rfl⟩ := hp
  exact Nat.mod_lt _ hm

lemma insert_inserted_count (f : BloomFilter) (x : List Nat) :
    (insert f x).inserted_count_ =
      if x.isEmpty then f.inserted_count_
      else (f.inserted_count_ + 1) % UINT64_MOD := by
  cases x with
  | nil => simp [insert]
  | cons a l => simp [insert]

/-- A small concrete well-formed filter state (m = 64, k = 3) used to
instantiate hypotheses in witnesses. -/
noncomputable def sampleFilter : BloomFilter :=
  { bit_array_size_ := 64
    bit_array_bytes_ := 8
    hash_count_ := 3
    expected_elements_ := 10
    false_positive_rate_ := 0
    inserted_count_ := 0
    bit_array_ := List.replicate 8 0 }

/-- C1.  No false negatives: for every non-empty byte sequence `x` and every
well-formed filter state, after `insert(x)`, `contains(x)` returns true
after any further sequence of insert calls (and no clear) in between. -/
theorem insert_then_contains (f : BloomFilter) (x : List Nat)
    (ys : List (List Nat)) (hwf : WF f) (hm : 0 < f.bit_array_size_)
    (hx : x ≠ []) :
    contains (insertAll (insert f x) ys) x = true := by
  have hxlen : ¬ x.length = 0 := by simpa using hx
  unfold contains
  rw [if_neg hxlen, List.all_eq_true]
  intro p hp
  simp only [insertAll_size, insert_size, insertAll_hashes, insert_hashes] at hp
  have hplt : p < f.bit_array_size_ := mem_get_all_hashes_lt hm _ _ hp
  apply get_bit_insertAll_mono
  unfold insert
  rw [if_neg hxlen]
  exact get_bit_foldl_mem _ _ hwf.1 p hp hplt

/-- Witness for C1 at a concrete filter state and inputs. -/
theorem insert_then_contains_witness :
    contains (insertAll (insert sampleFilter [1, 2, 3]) [[4], [5, 6]])
      [1, 2, 3] = true :=
  insert_then_contains sampleFilter [1, 2, 3] [[4], [5, 6]]
    (by decide) (by decide) (by decide)

/-- A well-formed filter state whose insertion counter sits at the
`size_t` maximum `2^64 - 1`. -/
noncomputable def maxCountFilter : BloomFilter :=
  { bit_array_size_ := 64
    bit_array_bytes_ := 8
    hash_count_ := 3
    expected_elements_ := 10
    false_positive_rate_ := 0
    inserted_count_ := UINT64_MOD - 1
    bit_array_ := List.replicate 8 0 }

/-- Counterexample to C3 as stated: `inserted_count_` is a `size_t`, so at
the state where it holds `2^64 - 1`, one more non-empty insert call wraps
it to 0 rather than incrementing it by 1 — `size()` then no longer equals
the number of non-empty insert calls performed. -/
theorem insert_increments_count_counterexample :
    size (insert maxCountFilter [1]) = 0
    ∧ size (insert maxCountFilter [1]) ≠ size maxCountFilter + 1 := by
  have h := insert_inserted_count maxCountFilter [1]
  simp only [List.isEmpty_cons, Bool.false_eq_true, if_false] at h
  have hval : size (insert maxCountFilter [1]) = 0 := by
    show (insert maxCountFilter [1]).inserted_count_ = 0
    rw [h]
    show (UINT64_MOD - 1 + 1) % UINT64_MOD = 0
    have he : UINT64_MOD - 1 + 1 = UINT64_MOD := by unfold UINT64_MOD; omega
    rw [he, Nat.mod_self]
  refine ⟨hval, ?_⟩
  rw [hval]
  show (0 : Nat) ≠ UINT64_MOD - 1 + 1
  unfold UINT64_MOD
  omega

/-- C3 (amended).  Every non-empty insert call increments `inserted_count`
by exactly one modulo `2^64` (the counter is a `size_t`), unconditionally
and duplicates included, so `size()` equals the number of non-empty insert
calls since construction or the last clear reduced mod `2^64` — and equals
it exactly as long as that number stays below `2^64`. -/
theorem insert_increments_count_amended :
    (∀ (f : BloomFilter) (x : List Nat), x ≠ [] →
      size (insert f x) = (size f + 1) % UINT64_MOD)
    ∧ (∀ (f : BloomFilter) (xs : List (List Nat)), size f < UINT64_MOD →
        size (insertAll f xs) =
          (size f + xs.countP (fun x => !x.isEmpty)) % UINT64_MOD)
    ∧ (∀ (f : BloomFilter) (xs : List (List Nat)),
        size (insertAll (clear f) xs) =
          xs.countP (fun x => !x.isEmpty) % UINT64_MOD)
    ∧ (∀ (f : BloomFilter) (xs : List (List Nat)),
        size f + xs.countP (fun x => !x.isEmpty) < UINT64_MOD →
          size (insertAll f xs) = size f + xs.countP (fun x => !x.isEmpty)) := by
  have hM : 0 < UINT64_MOD := by unfold UINT64_MOD; omega
  have h2 : ∀ (xs : List (List Nat)) (f : BloomFilter), size f < UINT64_MOD →
      size (insertAll f xs) =
        (size f + xs.countP (fun x => !x.isEmpty)) % UINT64_MOD := by
    intro xs
    induction xs with
    | nil =>
      intro f hf
      show f.inserted_count_ = (f.inserted_count_ + 0) % UINT64_MOD
      rw [Nat.add_zero]
      exact (Nat.mod_eq_of_lt hf).symm
    | cons x xs ih =>
      intro f hf
      have hstep : insertAll f (x :: xs) = insertAll (insert f x) xs := rfl
      have hins := insert_inserted_count f x
      by_cases hx : x.isEmpty
      · rw [if_pos hx] at hins
        have hlt : size (insert f x) < UINT64_MOD := by
          show (insert f x).inserted_count_ < UINT64_MOD
          rw [hins]; exact hf
        rw [hstep, ih _ hlt, List.countP_cons]
        have hc : (!x.isEmpty) = false := by rw [hx]; rfl
        rw [hc]
        show ((insert f x).inserted_count_ +
          xs.countP (fun y => !y.isEmpty)) % UINT64_MOD = _
        rw [hins]
        rfl
      · rw [if_neg hx] at hins
        have hlt : size (insert f x) < UINT64_MOD := by
          show (insert f x).inserted_count_ < UINT64_MOD
          rw [hins]; exact Nat.mod_lt _ hM
        rw [hstep, ih _ hlt, List.countP_cons]
        have hc : (!x.isEmpty) = true := by
          cases hxe : x.isEmpty
          · rfl
          · exact absurd hxe hx
        rw [hc]
        show ((insert f x).inserted_count_ +
          xs.countP (fun y => !y.isEmpty)) % UINT64_MOD = _
        rw [hins, if_pos rfl, Nat.mod_add_mod, Nat.add_assoc,
          Nat.add_comm 1 (xs.countP (fun y => !y.isEmpty))]
        rfl
  refine ⟨?_, fun f xs => h2 xs f, ?_, ?_⟩
  · intro f x hx
    have hxlen : ¬ x.length = 0 := by simpa using hx
    unfold size insert
    rw [if_neg hxlen]
    simp
  · intro f xs
    have h0 : size (clear f) = 0 := rfl
    rw [h2 xs (clear f) (by rw [h0]; exact hM), h0, Nat.zero_add]
  · intro f xs hsum
    have hf : size f < UINT64_MOD := by omega
    rw [h2 xs f hf, Nat.mod_eq_of_lt hsum]

/-- Witness for the amended C3 at concrete inputs: one wrapping-form
increment, and exact counting of non-empty calls below the wrap bound. -/
theorem insert_increments_count_amended_witness :
    size (insert sampleFilter [1]) = (size sampleFilter + 1) % UINT64_MOD
    ∧ size (insertAll sampleFilter [[1], [], [2]]) =
        size sampleFilter + [[1], [], [2]].countP (fun x => !x.isEmpty) :=
  ⟨insert_increments_count_amended.1 sampleFilter [1] (by decide),
    insert_increments_count_amended.2.2.2 sampleFilter [[1], [], [2]]
      (by decide)⟩

/-- C4.  Insert with an empty or null byte sequence is a no-op (state,
`size()` and `count_set_bits()` unchanged); contains with an empty or null
byte sequence returns false. -/
theorem empty_input_noop :
    (∀ f : BloomFilter, insert f [] = f)
    ∧ (∀ f : BloomFilter, insert_ptr f none = f)
    ∧ (∀ f : BloomFilter, contains f [] = false)
    ∧ (∀ f : BloomFilter, contains_ptr f none = false)
    ∧ (∀ f : BloomFilter, size (insert f []) = size f)
    ∧ (∀ f : BloomFilter, count_set_bits (insert f []) = count_set_bits f) :=
  ⟨fun _ => rfl, fun _ => rfl, fun _ => rfl, fun _ => rfl, fun _ => rfl,
    fun _ => rfl⟩

/-- C5.  The hash engine computes the two 64-bit base hashes, forces the
second one odd, and returns exactly `k` probe indices, the `i`-th being
`(h1 + i*h2) mod m` in the engine's 64-bit arithmetic; it is a pure
function, so two calls with the same input, `k` and parameters return
identical index sequences. -/
theorem get_all_hashes_spec (m k : Nat) (x : List Nat) :
    ((get_all_hashes m k x).length = k)
    ∧ ((if murmur3 DOUBLE_HASHER_SEED2 x % 2 = 0 then
          murmur3 DOUBLE_HASHER_SEED2 x + 1
        else murmur3 DOUBLE_HASHER_SEED2 x) % 2 = 1)
    ∧ (∀ i, i < k → (get_all_hashes m k x).getD i 0 =
        ((murmur3 DOUBLE_HASHER_SEED1 x +
          i * (if murmur3 DOUBLE_HASHER_SEED2 x % 2 = 0 then
                 murmur3 DOUBLE_HASHER_SEED2 x + 1
               else murmur3 DOUBLE_HASHER_SEED2 x)) % UINT64_MOD) % m)
    ∧ (get_all_hashes m k x = get_all_hashes m k x) := by
  refine ⟨?_, ?_, ?_, rfl⟩
  · unfold get_all_hashes
    simp
  · by_cases h : murmur3 DOUBLE_HASHER_SEED2 x % 2 = 0
    · rw [if_pos h]; omega
    · rw [if_neg h]; omega
  · intro i hi
    unfold get_all_hashes
    rw [List.getD_eq_getElem?_getD, List.getElem?_map, List.getElem?_range hi]
    rfl

/-- Witness for C5 at concrete `m`, `k`, input and index. -/
theorem get_all_hashes_spec_witness :
    (get_all_hashes 10 3 [7]).getD 1 0 =
      ((murmur3 DOUBLE_HASHER_SEED1 [7] +
        1 * (if murmur3 DOUBLE_HASHER_SEED2 [7] % 2 = 0 then
               murmur3 DOUBLE_HASHER_SEED2 [7] + 1
             else murmur3 DOUBLE_HASHER_SEED2 [7])) % UINT64_MOD) % 10 :=
  (get_all_hashes_spec 10 3 [7]).2.2.1 1 (by decide)

/-- C6.  Construction fails (with the `InvalidParameter` error) exactly when
the derived-mode inputs have `n = 0` or `p` outside the open interval
`(0,1)`, or the explicit-mode inputs have `m = 0` or `k` outside `[1,32]`.
All other operations are total functions of the state (their types in this
file are non-fallible), so only construction can fail. -/
theorem construction_error_iff :
    (∀ (n : Nat) (p : ℚ),
      (mkBloomFilterDerived n p).toOption = none ↔ (n = 0 ∨ p ≤ 0 ∨ 1 ≤ p))
    ∧ (∀ m k n : Nat,
      (mkBloomFilterExplicit m k n).toOption = none ↔
        (m = 0 ∨ k = 0 ∨ MAX_HASH_FUNCTIONS < k)) := by
  constructor
  · intro n p
    unfold mkBloomFilterDerived
    by_cases h1 : n = 0
    · simp [h1, Except.toOption]
    · rw [if_neg h1]
      by_cases h2 : p ≤ 0 ∨ 1 ≤ p
      · simp [h2, h1, Except.toOption]
      · simp [h2, h1, if_neg h2, Except.toOption]
  · intro m k n
    unfold mkBloomFilterExplicit
    by_cases h1 : m = 0
    · simp [h1, Except.toOption]
    · rw [if_neg h1]
      by_cases h2 : k = 0 ∨ MAX_HASH_FUNCTIONS < k
      · simp [h2, h1, Except.toOption]
      · simp [h2, h1, if_neg h2, Except.toOption]

/-- C10.  With a positive bit-array size `m`, every probe index produced by
the hash engine is strictly below `m` (it is reduced mod `m`), so the
`position >= bit_array_size_` guard branches of `set_bit` and `get_bit`
are never taken during `insert` and `contains`. -/
theorem hash_indices_lt (m k : Nat) (x : List Nat) (p : Nat)
    (hm : 0 < m) (hp : p ∈ get_all_hashes m k x) : p < m :=
  mem_get_all_hashes_lt hm k x hp

/-- Witness for C10: a concrete probe index of a concrete input is in
range. -/
theorem hash_indices_lt_witness :
    (get_all_hashes 10 3 [7]).getD 0 0 < 10 :=
  hash_indices_lt 10 3 [7] _ (by decide) (by decide)

/-! ### Correctness of the Kernighan popcount loop and of `count_set_bits` -/

/-- Reference binary popcount, used to relate the Kernighan loop to the
bits of its argument. -/
def bitcount (n : Nat) : Nat :=
  if h : n = 0 then 0 else n % 2 + bitcount (n / 2)
termination_by n
decreasing_by
  exact Nat.div_lt_self (Nat.pos_of_ne_zero h) Nat.one_lt_two

lemma bitcount_zero : bitcount 0 = 0 := by
  rw [bitcount]
  rfl

lemma bitcount_two_mul (c : Nat) : bitcount (2 * c) = bitcount c := by
  rcases Nat.eq_zero_or_pos c with rfl | hc
  · rfl
  · rw [bitcount, dif_neg (by omega)]
    have h1 : 2 * c % 2 = 0 := by omega
    have h2 : 2 * c / 2 = c := by omega
    rw [h1, h2, Nat.zero_add]

lemma bitcount_two_mul_add_one (c : Nat) :
    bitcount (2 * c + 1) = bitcount c + 1 := by
  rw [bitcount, dif_neg (by omega)]
  have h1 : (2 * c + 1) % 2 = 1 := by omega
  have h2 : (2 * c + 1) / 2 = c := by omega
  rw [h1, h2, Nat.add_comm]

lemma and_pred_odd (b : Nat) (h : b % 2 = 1) : b &&& (b - 1) = b - 1 := by
  apply Nat.eq_of_testBit_eq
  intro i
  rw [Nat.testBit_and]
  cases i with
  | zero =>
    have hb : b.testBit 0 = true := by rw [Nat.testBit_zero]; simp [h]
    rw [hb, Bool.true_and]
  | succ j =>
    rw [Nat.testBit_add_one, Nat.testBit_add_one (b - 1)]
    have hq : (b - 1) / 2 = b / 2 := by omega
    rw [hq, Bool.and_self]

lemma and_pred_even (c : Nat) (hc : 0 < c) :
    (2 * c) &&& (2 * c - 1) = 2 * (c &&& (c - 1)) := by
  apply Nat.eq_of_testBit_eq
  intro i
  rw [Nat.testBit_and]
  cases i with
  | zero =>
    have h1 : (2 * c).testBit 0 = false := by
      rw [Nat.testBit_zero]; exact decide_eq_false (by omega)
    have h2 : (2 * (c &&& (c - 1))).testBit 0 = false := by
      rw [Nat.testBit_zero]; exact decide_eq_false (by omega)
    rw [h1, h2, Bool.false_and]
  | succ j =>
    rw [Nat.testBit_add_one, Nat.testBit_add_one (2 * c - 1),
      Nat.testBit_add_one (2 * (c &&& (c - 1)))]
    have e1 : 2 * c / 2 = c := by omega
    have e2 : (2 * c - 1) / 2 = c - 1 := by omega
    have e3 : 2 * (c &&& (c - 1)) / 2 = c &&& (c - 1) := by omega
    rw [e1, e2, e3, Nat.testBit_and]

lemma bitcount_and_pred (b : Nat) (hb : b ≠ 0) :
    bitcount (b &&& (b - 1)) + 1 = bitcount b := by
  induction b using Nat.strong_induction_on with
  | _ b ih =>
    rcases Nat.mod_two_eq_zero_or_one b with h | h
    · obtain ⟨c, rfl⟩ : ∃ c, b = 2 * c := ⟨b / 2, by omega⟩
      have hc : c ≠ 0 := by omega
      rw [and_pred_even c (by omega), bitcount_two_mul, bitcount_two_mul]
      exact ih c (by omega) hc
    · obtain ⟨c, rfl⟩ : ∃ c, b = 2 * c + 1 := ⟨b / 2, by omega⟩
      rw [and_pred_odd _ h]
      have e : 2 * c + 1 - 1 = 2 * c := by omega
      rw [e, bitcount_two_mul, bitcount_two_mul_add_one]

lemma count_bits_in_byte_eq_bitcount (b : Nat) :
    count_bits_in_byte b = bitcount b := by
  induction b using Nat.strong_induction_on with
  | _ b ih =>
    by_cases hb : b = 0
    · subst hb
      rw [count_bits_in_byte, bitcount]
      rfl
    · rw [count_bits_in_byte, dif_neg hb,
        ih (b &&& (b - 1)) (Nat.lt_of_le_of_lt Nat.and_le_right (by omega))]
      exact bitcount_and_pred b hb

lemma bitcount_eq_sum_testBit (w : Nat) :
    ∀ b < 2 ^ w, bitcount b = ∑ i ∈ Finset.range w, (b.testBit i).toNat := by
  induction w with
  | zero =>
    intro b hb
    have : b = 0 := by simpa using hb
    subst this
    simp [bitcount_zero]
  | succ w ih =>
    intro b hb
    by_cases h0 : b = 0
    · subst h0
      simp [bitcount_zero, Nat.zero_testBit]
    · rw [bitcount, dif_neg h0, Finset.sum_range_succ']
      have hdiv : b / 2 < 2 ^ w := by
        have : 2 ^ (w + 1) = 2 * 2 ^ w := by ring
        omega
      rw [ih (b / 2) hdiv]
      simp only [Nat.testBit_add_one]
      have h0' : (b.testBit 0).toNat = b % 2 := by
        rw [Nat.testBit_zero]
        rcases Nat.mod_two_eq_zero_or_one b with h | h <;> simp [h]
      rw [h0']
      omega

lemma and_two_pow_sub_one (b w : Nat) : b &&& (2 ^ w - 1) = b % 2 ^ w := by
  apply Nat.eq_of_testBit_eq
  intro i
  rw [Nat.testBit_and, Nat.testBit_two_pow_sub_one, Nat.testBit_mod_two_pow,
    Bool.and_comm]

lemma count_bits_in_byte_masked (w b : Nat) :
    count_bits_in_byte (b % 2 ^ w) = ∑ i ∈ Finset.range w, (b.testBit i).toNat := by
  rw [count_bits_in_byte_eq_bitcount,
    bitcount_eq_sum_testBit w _ (Nat.mod_lt _ (Nat.two_pow_pos w))]
  refine Finset.sum_congr rfl fun i hi => ?_
  rw [Nat.testBit_mod_two_pow]
  simp [Finset.mem_range.1 hi]

lemma count_bits_in_byte_small (b : Nat) (hb : b < 256) :
    count_bits_in_byte b = ∑ i ∈ Finset.range 8, (b.testBit i).toNat := by
  have : b % 2 ^ 8 = b := Nat.mod_eq_of_lt hb
  rw [← count_bits_in_byte_masked 8 b, this]

lemma count_code_eq :
    ∀ (bs : List Nat) (m : Nat), (∀ b ∈ bs, b < 256) → m ≤ 8 * bs.length →
    (((bs.take (m / 8)).map count_bits_in_byte).sum +
      if 0 < m % 8 ∧ m / 8 < bs.length then
        count_bits_in_byte ((bs.getD (m / 8) 0) &&& ((1 <<< (m % 8)) - 1))
      else 0)
    = ∑ i ∈ Finset.range m, ((bs.getD (i / 8) 0).testBit (i % 8)).toNat := by
  intro bs
  induction bs with
  | nil =>
    intro m _ hm
    have hm0 : m = 0 := by simpa using hm
    subst hm0
    simp
  | cons b rest ih =>
    intro m hbytes hm
    have hb : b < 256 := hbytes b (List.mem_cons_self b rest)
    by_cases h8 : 8 ≤ m
    · obtain ⟨n, rfl⟩ : ∃ n, m = 8 + n := ⟨m - 8, by omega⟩
      have e1 : (8 + n) / 8 = n / 8 + 1 := by omega
      have e2 : (8 + n) % 8 = n % 8 := by omega
      rw [e1, e2, List.take_succ_cons, List.map_cons, List.sum_cons,
        List.getD_cons_succ]
      have econd : (0 < n % 8 ∧ n / 8 + 1 < (b :: rest).length) ↔
          (0 < n % 8 ∧ n / 8 < rest.length) := by
        simp [List.length_cons]
      have hbytes' : ∀ x ∈ rest, x < 256 :=
        fun x hx => hbytes x (List.mem_cons_of_mem b hx)
      have hm' : n ≤ 8 * rest.length := by
        simp only [List.length_cons] at hm; omega
      rw [if_congr econd rfl rfl, Nat.add_assoc, ih n hbytes' hm',
        Finset.sum_range_add]
      have hsum8 : (∑ i ∈ Finset.range 8,
          (((b :: rest).getD (i / 8) 0).testBit (i % 8)).toNat)
          = count_bits_in_byte b := by
        rw [count_bits_in_byte_small b hb]
        refine Finset.sum_congr rfl fun i hi => ?_
        have hi8 : i < 8 := Finset.mem_range.1 hi
        have d1 : i / 8 = 0 := by omega
        have d2 : i % 8 = i := by omega
        rw [d1, d2, List.getD_cons_zero]
      have hsumr : (∑ i ∈ Finset.range n,
          (((b :: rest).getD ((8 + i) / 8) 0).testBit ((8 + i) % 8)).toNat)
          = ∑ i ∈ Finset.range n, ((rest.getD (i / 8) 0).testBit (i % 8)).toNat := by
        refine Finset.sum_congr rfl fun i _ => ?_
        have d1 : (8 + i) / 8 = i / 8 + 1 := by omega
        have d2 : (8 + i) % 8 = i % 8 := by omega
        rw [d1, d2, List.getD_cons_succ]
      rw [hsum8, hsumr]
    · have d0 : m / 8 = 0 := by omega
      have dm : m % 8 = m := by omega
      rw [d0, dm, List.take_zero, List.map_nil, List.sum_nil, Nat.zero_add]
      by_cases hm0 : 0 < m
      · rw [if_pos ⟨hm0, by simp⟩, List.getD_cons_zero, Nat.one_shiftLeft,
          and_two_pow_sub_one, count_bits_in_byte_masked]
        refine Finset.sum_congr rfl fun i hi => ?_
        have him : i < m := Finset.mem_range.1 hi
        have d1 : i / 8 = 0 := by omega
        have d2 : i % 8 = i := by omega
        rw [d1, d2, List.getD_cons_zero]
      · have hm0' : m = 0 := by omega
        subst hm0'
        simp

lemma count_set_bits_eq_sum (f : BloomFilter) (h : WF f) :
    count_set_bits f = ∑ i ∈ Finset.range f.bit_array_size_,
      ((f.bit_array_.getD (i / 8) 0).testBit (i % 8)).toNat := by
  have hm : f.bit_array_size_ ≤ 8 * f.bit_array_.length := by
    rw [h.1]; omega
  rw [← count_code_eq f.bit_array_ f.bit_array_size_ h.2 hm]
  simp only [count_set_bits]
  by_cases hc : 0 < f.bit_array_size_ % 8 ∧ f.bit_array_size_ / 8 < f.bit_array_.length
  · rw [if_pos hc, if_pos hc]
  · rw [if_neg hc, if_neg hc, Nat.add_zero]

lemma count_set_bits_eq_card (f : BloomFilter) (h : WF f) :
    count_set_bits f =
      ((Finset.range f.bit_array_size_).filter (fun i => get_bit f i = true)).card := by
  rw [count_set_bits_eq_sum f h, Finset.card_filter]
  refine Finset.sum_congr rfl fun i hi => ?_
  have hi' : i < f.bit_array_size_ := Finset.mem_range.1 hi
  by_cases hbit : (f.bit_array_.getD (i / 8) 0).testBit (i % 8) = true
  · rw [hbit, if_pos ((get_bit_eq_true_iff f i).2 ⟨hi', hbit⟩)]
    rfl
  · rw [if_neg (fun hc => hbit ((get_bit_eq_true_iff f i).1 hc).2)]
    simp only [Bool.not_eq_true] at hbit
    rw [hbit]
    rfl

/-! ### Well-formedness is preserved by the mutating operations -/

lemma getD_lt_256 (l : List Nat) (i : Nat) (h : ∀ b ∈ l, b < 256) :
    l.getD i 0 < 256 := by
  rw [List.getD_eq_getElem?_getD]
  cases hg : l[i]? with
  | none => simp
  | some v => simpa using h v (List.getElem?_mem hg)

lemma WF_set_bit (f : BloomFilter) (p : Nat) (h : WF f) : WF (set_bit f p) := by
  unfold set_bit
  by_cases hg : f.bit_array_size_ ≤ p
  · rw [if_pos hg]; exact h
  · rw [if_neg hg]
    refine ⟨by simpa using h.1, ?_⟩
    intro b hb
    rcases List.mem_or_eq_of_mem_set hb with hmem | rfl
    · exact h.2 b hmem
    · have h1 : f.bit_array_.getD (p / 8) 0 < 2 ^ 8 :=
        getD_lt_256 _ _ h.2
      have h2 : (1 <<< (p % 8)) < 2 ^ 8 := by
        rw [Nat.one_shiftLeft]
        exact Nat.pow_lt_pow_right (by omega) (by omega)
      exact Nat.or_lt_two_pow h1 h2

lemma WF_foldl_set_bit (L : List Nat) (f : BloomFilter) (h : WF f) :
    WF (L.foldl set_bit f) := by
  induction L generalizing f with
  | nil => exact h
  | cons a L ih => exact ih _ (WF_set_bit f a h)

lemma WF_insert (f : BloomFilter) (x : List Nat) (h : WF f) :
    WF (insert f x) := by
  unfold insert
  by_cases hx : x.length = 0
  · rw [if_pos hx]; exact h
  · rw [if_neg hx]
    have := WF_foldl_set_bit (get_all_hashes f.bit_array_size_ f.hash_count_ x) f h
    exact ⟨by simpa [WF] using this.1, this.2⟩

lemma WF_insertAll (xs : List (List Nat)) (f : BloomFilter) (h : WF f) :
    WF (insertAll f xs) := by
  induction xs generalizing f with
  | nil => exact h
  | cons a xs ih => exact ih _ (WF_insert f a h)

/-- C7.  `count_set_bits()` returns the exact number of set bits among the
first `m` bit positions only: bits stored in the final partial byte at
positions `≥ m` are masked out and never counted. -/
theorem count_set_bits_exact (f : BloomFilter) (h : WF f) :
    count_set_bits f =
      ((Finset.range f.bit_array_size_).filter (fun i => get_bit f i = true)).card :=
  count_set_bits_eq_card f h

/-- A concrete filter with a partial final byte (m = 12) whose stored bytes
have all 16 bits set, so positions 12..15 are stray bits that
`count_set_bits` must mask out. -/
noncomputable def partialByteFilter : BloomFilter :=
  { bit_array_size_ := 12
    bit_array_bytes_ := 2
    hash_count_ := 3
    expected_elements_ := 5
    false_positive_rate_ := 0
    inserted_count_ := 0
    bit_array_ := [255, 255] }

/-- Witness for C7 at a concrete state with stray bits past position m. -/
theorem count_set_bits_exact_witness :
    count_set_bits partialByteFilter =
      ((Finset.range partialByteFilter.bit_array_size_).filter
        (fun i => get_bit partialByteFilter i = true)).card :=
  count_set_bits_exact partialByteFilter (by decide)

/-- C8.  `clear()` zeroes every byte of the bit array (so
`count_set_bits()` becomes 0) and resets `inserted_count` to 0, while
leaving `m`, `k`, `n_target`, `p_target` — and with them the accessors
`bit_array_size()`, `hash_count()`, `capacity()`, `false_positive_rate()`
and `memory_usage()` — exactly unchanged. -/
theorem clear_spec (f : BloomFilter) :
    (clear f).bit_array_ = List.replicate f.bit_array_.length 0
    ∧ (clear f).inserted_count_ = 0
    ∧ count_set_bits (clear f) = 0
    ∧ size (clear f) = 0
    ∧ bit_array_size (clear f) = bit_array_size f
    ∧ hash_count (clear f) = hash_count f
    ∧ capacity (clear f) = capacity f
    ∧ false_positive_rate (clear f) = false_positive_rate f
    ∧ memory_usage (clear f) = memory_usage f := by
  refine ⟨List.map_const' _ 0, rfl, ?_, rfl, rfl, rfl, rfl, rfl, rfl⟩
  have hzero : ∀ i : Nat, (clear f).bit_array_.getD i 0 = 0 := by
    intro i
    show (f.bit_array_.map (fun _ => 0)).getD i 0 = 0
    rw [List.getD_eq_getElem?_getD, List.getElem?_map]
    cases f.bit_array_[i]? <;> rfl
  simp only [count_set_bits]
  have htake : ∀ q : Nat, (((clear f).bit_array_.take q).map count_bits_in_byte).sum = 0 := by
    intro q
    show ((((f.bit_array_.map (fun _ => 0)).take q)).map count_bits_in_byte).sum = 0
    rw [← List.map_take]
    rw [List.map_map]
    have : ∀ l : List Nat, (l.map (count_bits_in_byte ∘ fun _ => 0)).sum = 0 := by
      intro l
      induction l with
      | nil => rfl
      | cons a l ih =>
        rw [List.map_cons, List.sum_cons, ih]
        show count_bits_in_byte 0 + 0 = 0
        rw [count_bits_in_byte]
        rfl
    exact this _
  by_cases hc : 0 < (clear f).bit_array_size_ % 8 ∧
      (clear f).bit_array_size_ / 8 < (clear f).bit_array_.length
  · rw [if_pos hc, htake, hzero, Nat.zero_and, Nat.zero_add]
    rw [count_bits_in_byte]
    rfl
  · rw [if_neg hc, htake]

/-- C9.  Monotonic fill: `count_set_bits()` never decreases across insert
calls (a single one or any sequence), and every set bit stays set across
any sequence of insert calls. -/
theorem monotonic_fill (f : BloomFilter) (x : List Nat)
    (xs : List (List Nat)) (h : WF f) :
    count_set_bits f ≤ count_set_bits (insert f x)
    ∧ count_set_bits f ≤ count_set_bits (insertAll f xs)
    ∧ (∀ i, get_bit f i = true → get_bit (insertAll f xs) i = true) := by
  have hsub : ∀ g : BloomFilter, WF g → g.bit_array_size_ = f.bit_array_size_ →
      (∀ i, get_bit f i = true → get_bit g i = true) →
      count_set_bits f ≤ count_set_bits g := by
    intro g hg hm hmono
    rw [count_set_bits_eq_card f h, count_set_bits_eq_card g hg, hm]
    apply Finset.card_le_card
    intro i hi
    rw [Finset.mem_filter] at hi ⊢
    exact ⟨hi.1, hmono i hi.2⟩
  refine ⟨?_, ?_, fun i => get_bit_insertAll_mono xs f i⟩
  · exact hsub (insert f x) (WF_insert f x h) (insert_size f x)
      (fun i => get_bit_insert_mono f x i)
  · exact hsub (insertAll f xs) (WF_insertAll xs f h) (insertAll_size xs f)
      (fun i => get_bit_insertAll_mono xs f i)

/-- Witness for C9 at a concrete state with a set bit. -/
theorem monotonic_fill_witness :
    count_set_bits partialByteFilter ≤
      count_set_bits (insert partialByteFilter [9])
    ∧ get_bit (insertAll partialByteFilter [[4], [5]]) 0 = true :=
  ⟨(monotonic_fill partialByteFilter [9] [[4], [5]] (by decide)).1,
    (monotonic_fill partialByteFilter [9] [[4], [5]] (by decide)).2.2 0 (by decide)⟩

/-! ### Constructor invariants (claim C2) -/

lemma Reachable_params {f g : BloomFilter} (h : Reachable f g) :
    g.bit_array_size_ = f.bit_array_size_
    ∧ g.hash_count_ = f.hash_count_
    ∧ g.expected_elements_ = f.expected_elements_
    ∧ g.false_positive_rate_ = f.false_positive_rate_ := by
  induction h with
  | refl => exact ⟨rfl, rfl, rfl, rfl⟩
  | step_insert x hr ih =>
    exact ⟨by rw [insert_size]; exact ih.1,
      by rw [insert_hashes]; exact ih.2.1,
      by rw [insert_expected]; exact ih.2.2.1,
      by rw [insert_rate]; exact ih.2.2.2⟩
  | step_clear hr ih =>
    exact ⟨by rw [clear_size]; exact ih.1,
      by rw [clear_hashes]; exact ih.2.1,
      by rw [clear_expected]; exact ih.2.2.1,
      by rw [clear_rate]; exact ih.2.2.2⟩

lemma min_le_calculate_optimal_bit_array_size (n : Nat) (p : ℚ) :
    MIN_BIT_ARRAY_SIZE ≤ calculate_optimal_bit_array_size n p := by
  unfold calculate_optimal_bit_array_size
  by_cases h : n = 0
  · rw [if_pos h]
  · rw [if_neg h]
    exact le_max_right _ _

lemma calculate_optimal_hash_count_bounds (m n : Nat) :
    MIN_HASH_FUNCTIONS ≤ calculate_optimal_hash_count m n
    ∧ calculate_optimal_hash_count m n ≤ MAX_HASH_FUNCTIONS := by
  unfold calculate_optimal_hash_count
  by_cases h : n = 0
  · rw [if_pos h]
    exact ⟨le_rfl, by decide⟩
  · rw [if_neg h]
    exact ⟨le_max_left _ _, max_le (by decide) (min_le_right _ _)⟩

lemma estimate_false_positive_rate_bounds (m k n : Nat)
    (hm : m ≠ 0) (hk : k ≠ 0) :
    0 ≤ estimate_false_positive_rate m k n
    ∧ estimate_false_positive_rate m k n < 1 := by
  unfold estimate_false_positive_rate
  rw [if_neg (by tauto)]
  by_cases hn : n = 0
  · rw [if_pos hn]
    exact ⟨le_rfl, zero_lt_one⟩
  · rw [if_neg hn]
    have hkpos : (0 : ℝ) < (k : ℝ) := by
      exact_mod_cast Nat.pos_of_ne_zero hk
    have hnpos : (0 : ℝ) < (n : ℝ) := by
      exact_mod_cast Nat.pos_of_ne_zero hn
    have hmpos : (0 : ℝ) < (m : ℝ) := by
      exact_mod_cast Nat.pos_of_ne_zero hm
    have hx : -((k : ℝ) * (n : ℝ)) / (m : ℝ) < 0 :=
      div_neg_of_neg_of_pos (neg_lt_zero.2 (mul_pos hkpos hnpos)) hmpos
    have hexp1 : Real.exp (-((k : ℝ) * (n : ℝ)) / (m : ℝ)) < 1 := by
      rw [← Real.exp_zero]
      exact Real.exp_lt_exp.2 hx
    have hexp0 : (0 : ℝ) < Real.exp (-((k : ℝ) * (n : ℝ)) / (m : ℝ)) :=
      Real.exp_pos _
    constructor
    · show (0 : ℝ) ≤ (1 - Real.exp (-((k : ℝ) * (n : ℝ)) / (m : ℝ))) ^ k
      exact pow_nonneg (by linarith) k
    · show (1 - Real.exp (-((k : ℝ) * (n : ℝ)) / (m : ℝ))) ^ k < 1
      exact pow_lt_one₀ (by linarith) (by linarith) hk

/-- The filter state produced by the explicit-mode constructor call
`BloomFilter(10, 3, 0)`: bit-array size 10, hash count 3, capacity 0. -/
noncomputable def smallExplicitFilter : BloomFilter :=
  { bit_array_size_ := 10
    bit_array_bytes_ := 2
    hash_count_ := 3
    expected_elements_ := 0
    false_positive_rate_ := estimate_false_positive_rate 10 3 0
    inserted_count_ := 0
    bit_array_ := List.replicate 2 0 }

lemma mkExplicit_small :
    mkBloomFilterExplicit 10 3 0 = Except.ok smallExplicitFilter := by
  unfold mkBloomFilterExplicit smallExplicitFilter
  rw [if_neg (by omega), if_neg (by simp [MAX_HASH_FUNCTIONS])]

lemma small_rate_zero : smallExplicitFilter.false_positive_rate_ = 0 := by
  show estimate_false_positive_rate 10 3 0 = 0
  unfold estimate_false_positive_rate
  rw [if_neg (by simp), if_pos rfl]

/-- Counterexample to C2 as stated: the explicit-mode construction
`BloomFilter(10, 3, 0)` succeeds, yet the resulting filter has
`m = 10 < 64` and `p_target = 0` (the estimator at `n = 0`), violating
both `m ≥ 64` and `0 < p_target`. -/
theorem constructor_invariants_counterexample :
    mkBloomFilterExplicit 10 3 0 = Except.ok smallExplicitFilter
    ∧ smallExplicitFilter.bit_array_size_ = 10
    ∧ smallExplicitFilter.false_positive_rate_ = 0
    ∧ ¬ (64 ≤ smallExplicitFilter.bit_array_size_
        ∧ 1 ≤ smallExplicitFilter.hash_count_
        ∧ smallExplicitFilter.hash_count_ ≤ 32
        ∧ 0 < smallExplicitFilter.false_positive_rate_
        ∧ smallExplicitFilter.false_positive_rate_ < 1) := by
  refine ⟨mkExplicit_small, rfl, small_rate_zero, fun hinv => ?_⟩
  have : (64 : Nat) ≤ 10 := hinv.1
  omega

/-- C2 (amended).  For every successfully constructed filter and every
state reachable from it by insert/contains/clear/accessors: in derived
mode `m ≥ 64`, `1 ≤ k ≤ 32` and `0 < p_target < 1` all hold; in explicit
mode only `m ≥ 1` is guaranteed (any positive size is accepted), `1 ≤ k ≤
32` holds, and the computed `p_target` satisfies `0 ≤ p_target < 1`, with
`p_target = 0` reachable at capacity 0.  All these fields are preserved by
every subsequent operation. -/
theorem constructor_invariants_amended :
    (∀ (n : Nat) (p : ℚ) (f g : BloomFilter),
      mkBloomFilterDerived n p = Except.ok f → Reachable f g →
        MIN_BIT_ARRAY_SIZE ≤ g.bit_array_size_
        ∧ MIN_HASH_FUNCTIONS ≤ g.hash_count_
        ∧ g.hash_count_ ≤ MAX_HASH_FUNCTIONS
        ∧ 0 < g.false_positive_rate_
        ∧ g.false_positive_rate_ < 1)
    ∧ (∀ (m k n : Nat) (f g : BloomFilter),
      mkBloomFilterExplicit m k n = Except.ok f → Reachable f g →
        1 ≤ g.bit_array_size_
        ∧ MIN_HASH_FUNCTIONS ≤ g.hash_count_
        ∧ g.hash_count_ ≤ MAX_HASH_FUNCTIONS
        ∧ 0 ≤ g.false_positive_rate_
        ∧ g.false_positive_rate_ < 1) := by
  constructor
  · intro n p f g hmk hr
    obtain ⟨e1, e2, -, e4⟩ := Reachable_params hr
    unfold mkBloomFilterDerived at hmk
    by_cases h1 : n = 0
    · rw [if_pos h1] at hmk; cases hmk
    rw [if_neg h1] at hmk
    by_cases h2 : p ≤ 0 ∨ 1 ≤ p
    · rw [if_pos h2] at hmk; cases hmk
    rw [if_neg h2] at hmk
    injection hmk with hmk
    subst hmk
    push_neg at h2
    refine ⟨?_, ?_, ?_, ?_, ?_⟩
    · rw [e1]
      exact min_le_calculate_optimal_bit_array_size n p
    · rw [e2]
      exact (calculate_optimal_hash_count_bounds _ n).1
    · rw [e2]
      exact (calculate_optimal_hash_count_bounds _ n).2
    · rw [e4]
      show (0 : ℝ) < (p : ℝ)
      exact_mod_cast h2.1
    · rw [e4]
      show (p : ℝ) < 1
      exact_mod_cast h2.2
  · intro m k n f g hmk hr
    obtain ⟨e1, e2, -, e4⟩ := Reachable_params hr
    unfold mkBloomFilterExplicit at hmk
    by_cases h1 : m = 0
    · rw [if_pos h1] at hmk; cases hmk
    rw [if_neg h1] at hmk
    by_cases h2 : k = 0 ∨ MAX_HASH_FUNCTIONS < k
    · rw [if_pos h2] at hmk; cases hmk
    rw [if_neg h2] at hmk
    injection hmk with hmk
    subst hmk
    push_neg at h2
    have hbounds := estimate_false_positive_rate_bounds m k n h1 h2.1
    refine ⟨?_, ?_, ?_, ?_, ?_⟩
    · rw [e1]
      show 1 ≤ m
      omega
    · rw [e2]
      show 1 ≤ k
      have hk0 : k ≠ 0 := h2.1
      omega
    · rw [e2]
      exact h2.2
    · rw [e4]
      exact hbounds.1
    · rw [e4]
      exact hbounds.2

/-- The filter state produced by the derived-mode constructor call
`BloomFilter(1000, 0.01)`. -/
noncomputable def derivedSampleFilter : BloomFilter :=
  { bit_array_size_ := calculate_optimal_bit_array_size 1000 (1 / 100)
    bit_array_bytes_ := (calculate_optimal_bit_array_size 1000 (1 / 100) + 7) / 8
    hash_count_ :=
      calculate_optimal_hash_count (calculate_optimal_bit_array_size 1000 (1 / 100)) 1000
    expected_elements_ := 1000
    false_positive_rate_ := ((1 / 100 : ℚ) : ℝ)
    inserted_count_ := 0
    bit_array_ :=
      List.replicate ((calculate_optimal_bit_array_size 1000 (1 / 100) + 7) / 8) 0 }

lemma mkDerived_sample :
    mkBloomFilterDerived 1000 (1 / 100) = Except.ok derivedSampleFilter := by
  unfold mkBloomFilterDerived derivedSampleFilter
  rw [if_neg (by omega), if_neg (by norm_num)]

/-- Witness for the amended C2, instantiating both construction modes at
concrete inputs. -/
theorem constructor_invariants_amended_witness :
    (MIN_BIT_ARRAY_SIZE ≤ derivedSampleFilter.bit_array_size_
      ∧ MIN_HASH_FUNCTIONS ≤ derivedSampleFilter.hash_count_
      ∧ derivedSampleFilter.hash_count_ ≤ MAX_HASH_FUNCTIONS
      ∧ 0 < derivedSampleFilter.false_positive_rate_
      ∧ derivedSampleFilter.false_positive_rate_ < 1)
    ∧ (1 ≤ smallExplicitFilter.bit_array_size_
        ∧ MIN_HASH_FUNCTIONS ≤ smallExplicitFilter.hash_count_
        ∧ smallExplicitFilter.hash_count_ ≤ MAX_HASH_FUNCTIONS
        ∧ 0 ≤ smallExplicitFilter.false_positive_rate_
        ∧ smallExplicitFilter.false_positive_rate_ < 1) :=
  ⟨constructor_invariants_amended.1 1000 (1 / 100) derivedSampleFilter
      derivedSampleFilter mkDerived_sample (Reachable.refl _),
    constructor_invariants_amended.2 10 3 0 smallExplicitFilter
      smallExplicitFilter mkExplicit_small (Reachable.refl _)⟩

end Bloomfilter
